import Mathlib

/-!
Verification of the Afton validation-study data-cleaning core against its
design specification.

The development shallowly embeds the two core components:

* the DAM pipeline (`src/dam/models/dam.py`): `organize_data` (row
  classification and comparison canonicalization) and
  `remove_incomplete_datasets` (the completeness filter);
* the REM deviation engine (`src/rem/models/datamodel.py`): `DataModel`'s
  `_assign_form_factors`, `collapse_form_factors`, `_diff_from_estat`,
  `_diff_from_endstudy` and `_diff_between_bestfit_targetmatch`.

A pandas DataFrame is embedded as a `List` of records; a table column is a
record field.  Column additions performed by the Python code on a whole
table are embedded as maps over the record list, and row selections
(`df[mask]`, `df.loc[...]`) as `List.filter`.  Positional (index-aligned)
arithmetic between two frames is embedded by structural recursion over both
lists, yielding `none` (pandas `NaN`) where the right-hand frame has no row
at the position.  Python exceptions (`IndexError` on a short audio-file
name, `KeyError` on an unknown comparison label or an unknown subject) are
embedded with `Except`.
-/

namespace Afton

/-! ## DAM data model (`src/dam/models/dam.py`)

A raw DAM observation row.  The derived columns (`comparison`, `snr`,
`tracks`, `type`) that `organize_data` adds to the frame in place are
`Option`-valued: `none` embeds "column absent".  `remove_incomplete_datasets`
operates on organized rows, where all four are `some`. -/

structure DamRow where
  subject : String
  condition : String
  button_A : String
  button_B : String
  audio_file : String
  outcome : String
  comparison : Option String := none
  snr : Option String := none
  tracks : Option String := none
  type : Option String := none
deriving DecidableEq, Repr

/-- `NOISE_TRACKS` constant. -/
def NOISE_TRACKS : List String := ["119", "205", "193", "181", "170", "182", "160", "71"]

/-- `COMPARISONS` dict: the fixed 6-entry canonicalization table, as an
association list. -/
def COMPARISONS : List (String × String) :=
  [("DAM_3-DAM_OFF", "DAM_OFF-DAM_3"),
   ("DAM_4-DAM_3", "DAM_3-DAM_4"),
   ("DAM_3-MNR_3", "MNR_3-DAM_3"),
   ("DAM_OFF-DAM_3", "DAM_OFF-DAM_3"),
   ("DAM_3-DAM_4", "DAM_3-DAM_4"),
   ("MNR_3-DAM_3", "MNR_3-DAM_3")]

/-- `COMPARISONS[x]` as a total-with-failure lookup (`KeyError` = `none`). -/
def comparisonLookup (s : String) : Option String := COMPARISONS.lookup s

/-- Errors the DAM transforms raise (Python `IndexError` on `z[4]` and
`KeyError` on `COMPARISONS[x]`, named as in the specification). -/
inductive DamError where
  | MalformedAudioFileName
  | UnknownComparisonLabel
deriving DecidableEq, Repr

/-- Split a character list at every occurrence of `sep`: the semantics of
Python `str.split('_')` (and of pandas `Series.str.split('_')` per row).
Always returns a non-empty list. -/
def splitChar (sep : Char) : List Char → List (List Char)
  | [] => [[]]
  | c :: cs =>
    let rest := splitChar sep cs
    if c = sep then [] :: rest
    else
      match rest with
      | [] => [[c]]
      | t :: ts => (c :: t) :: ts

/-- The underscore-delimited tokens of a row's `audio_file`
(`audio_files.str.split('_')`). -/
def audioTokens (r : DamRow) : List String :=
  (splitChar '_' r.audio_file.data).map String.mk

/-- `data.insert(loc=6, column='comparison', value=data["button_A"]+"-"+data["button_B"])`. -/
def addComparison (data : List DamRow) : List DamRow :=
  data.map fun r => { r with comparison := some (r.button_A ++ "-" ++ r.button_B) }

/-- A `Series.apply` that can raise: apply `f` to every row, stopping at the
first row on which `f` raises (pandas evaluates the whole `apply` before any
column assignment, so one raising row aborts the transform). -/
def mapE (f : DamRow → Except DamError DamRow) : List DamRow → Except DamError (List DamRow)
  | [] => .ok []
  | r :: rs =>
    match f r with
    | .error e => .error e
    | .ok r' =>
      match mapE f rs with
      | .error e => .error e
      | .ok rs' => .ok (r' :: rs')

/-- `lambda z: z[4]` on one row: `IndexError` when `audio_file` has fewer
than 5 underscore tokens. -/
def snrRow (r : DamRow) : Except DamError DamRow :=
  match (audioTokens r)[4]? with
  | some s => .ok { r with snr := some s }
  | none => .error .MalformedAudioFileName

/-- `snrs = split_values.apply(lambda z: z[4]); data['snr'] = snrs`. -/
def addSnr (data : List DamRow) : Except DamError (List DamRow) :=
  mapE snrRow data

/-- `tracks = split_values.apply(lambda z: z[0]); data['tracks'] = tracks` —
`z[0]` never fails since `split` always returns a non-empty list, so the
`headD` default is never used. -/
def addTracks (data : List DamRow) : List DamRow :=
  data.map fun r => { r with tracks := some ((audioTokens r).headD "") }

/-- `data['type'] = data['tracks'].apply(lambda value: 'noise' if value in NOISE_TRACKS else 'pref')`. -/
def addType (data : List DamRow) : List DamRow :=
  data.map fun r =>
    { r with type := some (if (r.tracks.getD "") ∈ NOISE_TRACKS then "noise" else "pref") }

/-- `data['comparison'] = data['comparison'].apply(lambda x: COMPARISONS[x])` —
the `apply` raises `KeyError` (before any assignment) as soon as one row's
comparison string is not a key of the table. -/
def canonRow (r : DamRow) : Except DamError DamRow :=
  match comparisonLookup (r.comparison.getD "") with
  | some c => .ok { r with comparison := some c }
  | none => .error .UnknownComparisonLabel

def canonComparisons (data : List DamRow) : Except DamError (List DamRow) :=
  mapE canonRow data

/-- `organize_data`, with the in-place mutation of the argument frame made
explicit: the first component is what the function returns (or the exception
it raises), the second is the state of the *caller's* frame when the call
ends.  The Python function mutates `data` column by column and ends with
`return data`, so on success the caller's frame is the organized frame
itself; on an exception the columns assigned before the raising `apply`
remain in the caller's frame. -/
def organize_data_state (data : List DamRow) :
    Except DamError (List DamRow) × List DamRow :=
  let t1 := addComparison data
  match addSnr t1 with
  | .error e => (.error e, t1)
  | .ok t2 =>
    let t4 := addType (addTracks t2)
    match canonComparisons t4 with
    | .error e => (.error e, t4)
    | .ok t5 => (.ok t5, t5)

/-- The value `organize_data` returns (or the exception it raises). -/
def organize_data (data : List DamRow) : Except DamError (List DamRow) :=
  (organize_data_state data).1

/-! ### Completeness filter (`remove_incomplete_datasets`) -/

/-- The composite grouping key `(subject, comparison, snr, condition)`. -/
abbrev DamKey := String × Option String × Option String × String

/-- The key of a row under the multilevel index
`['subject', 'comparison', 'snr', 'condition']`. -/
def keyOf (r : DamRow) : DamKey := (r.subject, r.comparison, r.snr, r.condition)

/-- Whether a row belongs to the group `df.loc[(subject, comparison, snr, condition)]`. -/
def matchesKey (k : DamKey) (r : DamRow) : Bool := keyOf r == k

/-- `df.loc[(subject, comparison, snr, condition)].shape[0]`: the size of one
key group (`0` embeds pandas' `KeyError` for an absent key). -/
def countKey (df : List DamRow) (k : DamKey) : Nat :=
  (df.filter (matchesKey k)).length

/-- One iteration of the nested `for` loops: look the combination up; on
`KeyError` (no matching rows) continue; if the group's size is not 4, drop
the whole group from the frame; otherwise leave the frame unchanged. -/
def checkCombo (df : List DamRow) (k : DamKey) : List DamRow :=
  let n := countKey df k
  if n = 0 then df
  else if n ≠ 4 then df.filter (fun r => !matchesKey k r)
  else df

/-- The nested `for subject / comparison / snr / condition` loops, which
mutate `df` as they go. -/
def runCombos (df : List DamRow) (ks : List DamKey) : List DamRow :=
  ks.foldl checkCombo df

/-- The Cartesian product of the distinct observed values of the four key
fields (`unique()` per column), enumerated in the source's nested-loop
order.  (pandas `unique()` keeps first occurrences while `List.dedup` keeps
last ones; only membership and distinctness of the enumeration matter to the
loop's result, which theorem `runCombos_eq_filter` makes precise.) -/
def combosOf (df : List DamRow) : List DamKey :=
  ((df.map (·.subject)).dedup).flatMap fun s =>
    ((df.map (·.comparison)).dedup).flatMap fun c =>
      ((df.map (·.snr)).dedup).flatMap fun n =>
        ((df.map (·.condition)).dedup).map fun d => (s, c, n, d)

/-- `mask = mli['type'] == 'pref'`. -/
def isPref (r : DamRow) : Bool := r.type == some "pref"

/-- Filtering one of the two sub-frames (`prefs` or `noise`). -/
def filterPartition (df : List DamRow) : List DamRow :=
  runCombos df (combosOf df)

/-- `remove_incomplete_datasets`: split the organized frame into the `pref`
sub-frame (`mli[mask]`) and its complement (`mli[-mask]`), filter each
independently, and concatenate.  (The source additionally sorts each
sub-frame by the multilevel index before the loops; the sort only permutes
rows and is dropped from the embedding, whose theorems are stated up to
membership and multiplicity.) -/
def remove_incomplete_datasets (data : List DamRow) : List DamRow :=
  let prefs := data.filter isPref
  let noise := data.filter fun r => !isPref r
  filterPartition prefs ++ filterPartition noise

/-- The alternative completeness filter considered by the specification's
rationale (§4.3): enumerate only the distinct group keys actually present in
the sub-frame, instead of the full Cartesian product of per-field values. -/
def presentCombosOf (df : List DamRow) : List DamKey :=
  (df.map keyOf).dedup

/-- The alternative filter run over one sub-frame. -/
def filterPartitionPresent (df : List DamRow) : List DamRow :=
  runCombos df (presentCombosOf df)

/-- `remove_incomplete_datasets` with the alternative enumeration. -/
def remove_incomplete_present (data : List DamRow) : List DamRow :=
  let prefs := data.filter isPref
  let noise := data.filter fun r => !isPref r
  filterPartitionPresent prefs ++ filterPartitionPresent noise

/-- Whether two rows fall into the same `type` partition *and* the same
`(subject, comparison, snr, condition)` group. -/
def samePartKey (x r : DamRow) : Bool :=
  (isPref x == isPref r) && (keyOf x == keyOf r)

/-- The number of rows of the frame that share `r`'s key within `r`'s `type`
partition. -/
def groupCount (data : List DamRow) (r : DamRow) : Nat :=
  (data.filter fun x => samePartKey x r).length

/-! ### Lemmas about the completeness-filter loop -/

theorem all_congr_of_mem {α : Type} {l : List α} {f g : α → Bool}
    (h : ∀ a ∈ l, f a = g a) : l.all f = l.all g := by
  induction l with
  | nil => rfl
  | cons a l ih =>
    simp only [List.all_cons]
    rw [h a (by simp), ih fun b hb => h b (by simp [hb])]

/-- Whether a row survives all the checks of the given combination list,
judged against the frame the loop started from. -/
def keepRow (df : List DamRow) (ks : List DamKey) (r : DamRow) : Bool :=
  ks.all fun k => !matchesKey k r || (countKey df k == 4)

theorem countKey_filter_ne (df : List DamRow) (k k' : DamKey) (h : k' ≠ k) :
    countKey (df.filter fun r => !matchesKey k r) k' = countKey df k' := by
  unfold countKey
  rw [List.filter_filter]
  congr 1
  apply List.filter_congr
  intro r _
  by_cases hm : matchesKey k' r
  · have hk : matchesKey k r = false := by
      simp only [matchesKey, beq_iff_eq] at hm ⊢
      simp [hm, h]
    simp [hm, hk]
  · simp [Bool.eq_false_iff.mpr hm]

theorem keepRow_filter_ne (df : List DamRow) (k : DamKey) (ks : List DamKey)
    (r : DamRow) (h : matchesKey k r = false) :
    keepRow (df.filter fun x => !matchesKey k x) ks r = keepRow df ks r := by
  unfold keepRow
  apply all_congr_of_mem
  intro k' _
  by_cases hm : matchesKey k' r
  · have hne : k' ≠ k := by
      simp only [matchesKey, beq_iff_eq] at hm
      simp only [matchesKey, beq_eq_false_iff_ne, ne_eq] at h
      intro he
      exact h (he ▸ hm)
    rw [countKey_filter_ne df k k' hne]
  · simp [Bool.eq_false_iff.mpr hm]

/-- No row of the frame matches a key of group size 0. -/
theorem not_matchesKey_of_countKey_zero {df : List DamRow} {k : DamKey}
    (h : countKey df k = 0) {r : DamRow} (hr : r ∈ df) :
    matchesKey k r = false := by
  unfold countKey at h
  rw [List.length_eq_zero] at h
  by_contra hb
  have : r ∈ df.filter (matchesKey k) :=
    List.mem_filter.mpr ⟨hr, Bool.of_not_eq_false hb⟩
  simp [h] at this

/-- The completeness loop's net effect: the frame filtered to the rows whose
key, if enumerated, has group size exactly 4 in the starting frame. -/
theorem runCombos_eq_filter (ks : List DamKey) (df : List DamRow) :
    runCombos df ks = df.filter (keepRow df ks) := by
  induction ks generalizing df with
  | nil => exact (List.filter_eq_self.mpr fun a _ => rfl).symm
  | cons k ks ih =>
    have step : runCombos df (k :: ks) = runCombos (checkCombo df k) ks := by
      simp [runCombos]
    rw [step, ih]
    unfold checkCombo
    by_cases h0 : countKey df k = 0
    · simp only [h0, if_pos rfl]
      apply List.filter_congr
      intro r hr
      have hm : matchesKey k r = false := not_matchesKey_of_countKey_zero h0 hr
      simp [keepRow, List.all_cons, hm]
    · by_cases h4 : countKey df k = 4
      · simp only [if_neg h0, h4, ne_eq, not_true_eq_false, if_neg, if_false]
        apply List.filter_congr
        intro r hr
        simp [keepRow, List.all_cons, h4]
      · have hne : (countKey df k ≠ 4) = True := by simp [h4]
        simp only [if_neg h0, hne, if_true]
        rw [List.filter_filter]
        apply List.filter_congr
        intro r hr
        by_cases hm : matchesKey k r
        · have h1 : (!matchesKey k r) = false := by simp [hm]
          simp [keepRow, List.all_cons, h1, hm, h4]
        · have hmf : matchesKey k r = false := Bool.eq_false_iff.mpr hm
          rw [keepRow_filter_ne df k ks r hmf]
          simp [keepRow, List.all_cons, hmf, h4]

theorem keepRow_eq_true_iff (df : List DamRow) (ks : List DamKey) (r : DamRow) :
    keepRow df ks r = true ↔ (keyOf r ∈ ks → countKey df (keyOf r) = 4) := by
  simp only [keepRow, List.all_eq_true, matchesKey, Bool.or_eq_true,
    Bool.not_eq_true', beq_iff_eq, beq_eq_false_iff_ne, ne_eq]
  constructor
  · intro h hk
    rcases h (keyOf r) hk with h' | h'
    · exact absurd rfl h'
    · exact h'
  · intro h k hk
    by_cases he : keyOf r = k
    · exact Or.inr (he ▸ h (he ▸ hk))
    · exact Or.inl he

theorem keyOf_mem_combosOf {df : List DamRow} {r : DamRow} (hr : r ∈ df) :
    keyOf r ∈ combosOf df := by
  unfold combosOf
  simp only [List.mem_flatMap, List.mem_map, List.mem_dedup]
  exact ⟨r.subject, ⟨r, hr, rfl⟩, r.comparison, ⟨r, hr, rfl⟩,
    r.snr, ⟨r, hr, rfl⟩, r.condition, ⟨r, hr, rfl⟩, rfl⟩

theorem keyOf_mem_presentCombosOf {df : List DamRow} {r : DamRow} (hr : r ∈ df) :
    keyOf r ∈ presentCombosOf df := by
  unfold presentCombosOf
  exact List.mem_dedup.mpr (List.mem_map.mpr ⟨r, hr, rfl⟩)

/-- Both enumerations keep exactly the rows whose own group has size 4. -/
theorem filterPartition_eq_present (df : List DamRow) :
    filterPartition df = filterPartitionPresent df := by
  unfold filterPartition filterPartitionPresent
  rw [runCombos_eq_filter, runCombos_eq_filter]
  apply List.filter_congr
  intro r hr
  rw [Bool.eq_iff_iff, keepRow_eq_true_iff, keepRow_eq_true_iff]
  simp [keyOf_mem_combosOf hr, keyOf_mem_presentCombosOf hr]

theorem mem_filterPartition {df : List DamRow} {r : DamRow} :
    r ∈ filterPartition df ↔ r ∈ df ∧ countKey df (keyOf r) = 4 := by
  unfold filterPartition
  rw [runCombos_eq_filter, List.mem_filter]
  constructor
  · rintro ⟨hr, hk⟩
    exact ⟨hr, (keepRow_eq_true_iff df _ r).mp hk (keyOf_mem_combosOf hr)⟩
  · rintro ⟨hr, hc⟩
    exact ⟨hr, (keepRow_eq_true_iff df _ r).mpr fun _ => hc⟩

theorem count_filterPartition {df : List DamRow} (r : DamRow) :
    List.count r (filterPartition df) =
      if countKey df (keyOf r) = 4 then List.count r df else 0 := by
  by_cases hin : r ∈ df
  · unfold filterPartition
    rw [runCombos_eq_filter]
    by_cases hc : countKey df (keyOf r) = 4
    · rw [if_pos hc]
      exact List.count_filter ((keepRow_eq_true_iff df _ r).mpr fun _ => hc)
    · rw [if_neg hc]
      rw [List.count_eq_zero]
      intro hmem
      have := (List.mem_filter.mp hmem).2
      exact hc ((keepRow_eq_true_iff df _ r).mp this (keyOf_mem_combosOf hin))
  · have h1 : List.count r df = 0 := List.count_eq_zero.mpr hin
    have h2 : List.count r (filterPartition df) = 0 := by
      rw [List.count_eq_zero]
      intro hmem
      exact hin (mem_filterPartition.mp hmem).1
    rw [h1, h2, ite_self]

theorem countKey_pref_eq_groupCount (data : List DamRow) (r : DamRow)
    (hp : isPref r = true) :
    countKey (data.filter isPref) (keyOf r) = groupCount data r := by
  unfold countKey groupCount
  rw [List.filter_filter]
  congr 1
  apply List.filter_congr
  intro x _
  simp [matchesKey, samePartKey, hp, Bool.and_comm]

theorem countKey_noise_eq_groupCount (data : List DamRow) (r : DamRow)
    (hp : isPref r = false) :
    countKey (data.filter fun x => !isPref x) (keyOf r) = groupCount data r := by
  unfold countKey groupCount
  rw [List.filter_filter]
  congr 1
  apply List.filter_congr
  intro x _
  simp [matchesKey, samePartKey, hp, Bool.and_comm]

/-- The completeness filter keeps a row exactly when its group (within its
`type` partition) has size 4, and it keeps every copy of a kept row: groups
are dropped wholesale, never trimmed. -/
theorem remove_incomplete_spec (data : List DamRow) (r : DamRow) :
    (r ∈ remove_incomplete_datasets data ↔ r ∈ data ∧ groupCount data r = 4) ∧
    List.count r (remove_incomplete_datasets data) =
      if groupCount data r = 4 then List.count r data else 0 := by
  unfold remove_incomplete_datasets
  by_cases hp : isPref r = true
  · have hNmem : r ∉ data.filter fun x => !isPref x := by
      intro h
      have := (List.mem_filter.mp h).2
      simp [hp] at this
    have hfpN : r ∉ filterPartition (data.filter fun x => !isPref x) :=
      fun h => hNmem (mem_filterPartition.mp h).1
    have hkey := countKey_pref_eq_groupCount data r hp
    constructor
    · rw [List.mem_append]
      constructor
      · rintro (h | h)
        · obtain ⟨h1, h2⟩ := mem_filterPartition.mp h
          exact ⟨(List.mem_filter.mp h1).1, by rw [← hkey]; exact h2⟩
        · exact absurd h hfpN
      · rintro ⟨h1, h2⟩
        exact Or.inl (mem_filterPartition.mpr
          ⟨List.mem_filter.mpr ⟨h1, hp⟩, by rw [hkey]; exact h2⟩)
    · rw [List.count_append, List.count_eq_zero.mpr hfpN, Nat.add_zero,
        count_filterPartition, hkey, List.count_filter hp]
  · have hp' : isPref r = false := Bool.eq_false_iff.mpr hp
    have hPmem : r ∉ data.filter isPref := by
      intro h
      exact hp (List.mem_filter.mp h).2
    have hfpP : r ∉ filterPartition (data.filter isPref) :=
      fun h => hPmem (mem_filterPartition.mp h).1
    have hkey := countKey_noise_eq_groupCount data r hp'
    have hb : (!isPref r) = true := by simp [hp']
    constructor
    · rw [List.mem_append]
      constructor
      · rintro (h | h)
        · exact absurd h hfpP
        · obtain ⟨h1, h2⟩ := mem_filterPartition.mp h
          exact ⟨(List.mem_filter.mp h1).1, by rw [← hkey]; exact h2⟩
      · rintro ⟨h1, h2⟩
        exact Or.inr (mem_filterPartition.mpr
          ⟨List.mem_filter.mpr ⟨h1, hb⟩, by rw [hkey]; exact h2⟩)
    · have hcf : List.count r (data.filter fun x => !isPref x) = List.count r data :=
        @List.count_filter _ _ _ (fun x => !isPref x) r data hb
      rw [List.count_append, List.count_eq_zero.mpr hfpP, Nat.zero_add,
        count_filterPartition, hkey, hcf]

theorem remove_incomplete_eq_present (data : List DamRow) :
    remove_incomplete_datasets data = remove_incomplete_present data := by
  simp only [remove_incomplete_datasets, remove_incomplete_present,
    filterPartition_eq_present]

/-! ### Lemmas about `organize_data` -/

theorem mapE_ok_of_forall {f : DamRow → Except DamError DamRow}
    {g : DamRow → DamRow} : ∀ {l : List DamRow},
    (∀ r ∈ l, f r = .ok (g r)) → mapE f l = .ok (l.map g) := by
  intro l
  induction l with
  | nil => intro _; rfl
  | cons r rs ih =>
    intro h
    have hr := h r (by simp)
    have hrs := ih fun x hx => h x (by simp [hx])
    simp [mapE, hr, hrs]

theorem mapE_error_of_first {f : DamRow → Except DamError DamRow} {e : DamError}
    (hkind : ∀ r e', f r = .error e' → e' = e) : ∀ {l : List DamRow},
    (∃ r ∈ l, ∀ y, f r ≠ .ok y) → mapE f l = .error e := by
  intro l
  induction l with
  | nil => rintro ⟨r, hr, _⟩; simp at hr
  | cons r rs ih =>
    rintro ⟨x, hx, hfail⟩
    rcases List.mem_cons.mp hx with rfl | hx'
    · cases hf : f x with
      | error e' => simp [mapE, hf, hkind x e' hf]
      | ok y => exact absurd hf (hfail y)
    · cases hf : f r with
      | error e' => simp [mapE, hf, hkind r e' hf]
      | ok y => simp [mapE, hf, ih ⟨x, hx', hfail⟩]

theorem mapE_ok_forall {f : DamRow → Except DamError DamRow} :
    ∀ {l : List DamRow} {out : List DamRow},
    mapE f l = .ok out → ∀ r ∈ l, ∃ y, f r = .ok y := by
  intro l
  induction l with
  | nil => intro out _ r hr; simp at hr
  | cons r rs ih =>
    intro out h x hx
    cases hf : f r with
    | error e => simp [mapE, hf] at h
    | ok y =>
      rcases List.mem_cons.mp hx with rfl | hx'
      · exact ⟨y, hf⟩
      · cases hrs : mapE f rs with
        | error e => simp [mapE, hf, hrs] at h
        | ok ys => exact ih hrs x hx'

/-- A row is malformed when its `audio_file` has fewer than 5 underscore
tokens (`z[4]` raises `IndexError`). -/
def malformedRow (r : DamRow) : Prop := (audioTokens r).length < 5

/-- A row's raw comparison string is not a key of `COMPARISONS`
(`COMPARISONS[x]` raises `KeyError`). -/
def unknownCompRow (r : DamRow) : Prop :=
  comparisonLookup (r.button_A ++ "-" ++ r.button_B) = none

theorem snrRow_ok_iff (r : DamRow) :
    (∃ y, snrRow r = .ok y) ↔ ¬ malformedRow r := by
  unfold snrRow malformedRow
  cases h : (audioTokens r)[4]? with
  | none =>
    have := List.getElem?_eq_none_iff.mp h
    simp [this]
    omega
  | some s =>
    have : 4 < (audioTokens r).length := by
      by_contra hb
      rw [List.getElem?_eq_none_iff.mpr (by omega)] at h
      exact Option.noConfusion h
    simp [this]
    omega

theorem snrRow_error_kind (r : DamRow) (e : DamError)
    (h : snrRow r = .error e) : e = .MalformedAudioFileName := by
  cases hx : (audioTokens r)[4]? with
  | none => simp only [snrRow, hx, Except.error.injEq] at h; exact h.symm
  | some s => simp [snrRow, hx] at h

theorem snrRow_ok_eq (r : DamRow) (h : ¬ malformedRow r) :
    snrRow r = .ok { r with snr := some ((audioTokens r)[4]?.getD "") } := by
  have h4 : 4 < (audioTokens r).length := by
    unfold malformedRow at h; omega
  simp [snrRow, List.getElem?_eq_getElem h4]

theorem canonRow_ok_iff (r : DamRow) :
    (∃ y, canonRow r = .ok y) ↔ comparisonLookup (r.comparison.getD "") ≠ none := by
  cases h : comparisonLookup (r.comparison.getD "") <;> simp [canonRow, h]

theorem canonRow_error_kind (r : DamRow) (e : DamError)
    (h : canonRow r = .error e) : e = .UnknownComparisonLabel := by
  cases hx : comparisonLookup (r.comparison.getD "") with
  | none => simp only [canonRow, hx, Except.error.injEq] at h; exact h.symm
  | some c => simp [canonRow, hx] at h

theorem canonRow_ok_eq (r : DamRow)
    (h : comparisonLookup (r.comparison.getD "") ≠ none) :
    canonRow r =
      .ok { r with comparison := some ((comparisonLookup (r.comparison.getD "")).getD "") } := by
  cases hx : comparisonLookup (r.comparison.getD "") with
  | none => exact absurd hx h
  | some c => simp [canonRow, hx]

theorem organize_data_err_malformed {data : List DamRow}
    (hm : ∃ r ∈ data, malformedRow r) :
    organize_data data = .error .MalformedAudioFileName := by
  obtain ⟨x, hx, hmx⟩ := hm
  have h1 : addSnr (addComparison data) = .error .MalformedAudioFileName := by
    apply mapE_error_of_first snrRow_error_kind
    refine ⟨{ x with comparison := some (x.button_A ++ "-" ++ x.button_B) },
      List.mem_map.mpr ⟨x, hx, rfl⟩, ?_⟩
    intro y hy
    exact (snrRow_ok_iff _).mp ⟨y, hy⟩ hmx
  simp [organize_data, organize_data_state, addSnr] at h1 ⊢
  simp [h1]

theorem organize_data_of_no_malformed {data : List DamRow}
    (hall : ∀ r ∈ data, ¬ malformedRow r) :
    addSnr (addComparison data) =
      .ok ((addComparison data).map fun r =>
        { r with snr := some ((audioTokens r)[4]?.getD "") }) := by
  apply mapE_ok_of_forall
  intro r hr
  obtain ⟨x, hx, rfl⟩ := List.mem_map.mp hr
  exact snrRow_ok_eq _ (hall x hx)

theorem organize_data_err_unknown {data : List DamRow}
    (hall : ∀ r ∈ data, ¬ malformedRow r) (hu : ∃ r ∈ data, unknownCompRow r) :
    organize_data data = .error .UnknownComparisonLabel := by
  obtain ⟨x, hx, hux⟩ := hu
  have h2 := organize_data_of_no_malformed hall
  have hcanon :
      canonComparisons (addType (addTracks ((addComparison data).map fun r =>
        { r with snr := some ((audioTokens r)[4]?.getD "") }))) =
        .error .UnknownComparisonLabel := by
    apply mapE_error_of_first canonRow_error_kind
    refine ⟨_, List.mem_map.mpr
      ⟨_, List.mem_map.mpr ⟨_, List.mem_map.mpr ⟨_, List.mem_map.mpr ⟨x, hx, rfl⟩, rfl⟩, rfl⟩, rfl⟩, ?_⟩
    intro y hy
    exact (canonRow_ok_iff _).mp ⟨y, hy⟩ hux
  simp [organize_data, organize_data_state, addSnr] at h2 ⊢
  simp [h2, canonComparisons] at hcanon ⊢
  simp [hcanon]

theorem organize_data_all_ok {data : List DamRow}
    (hall : ∀ r ∈ data, ¬ malformedRow r)
    (hallu : ∀ r ∈ data, ¬ unknownCompRow r) :
    ∃ out, organize_data data = .ok out := by
  have h2 := organize_data_of_no_malformed hall
  have hcanon :
      canonComparisons (addType (addTracks ((addComparison data).map fun r =>
        { r with snr := some ((audioTokens r)[4]?.getD "") }))) =
        .ok ((addType (addTracks ((addComparison data).map fun r =>
          { r with snr := some ((audioTokens r)[4]?.getD "") }))).map fun r =>
            { r with comparison := some ((comparisonLookup (r.comparison.getD "")).getD "") }) := by
    apply mapE_ok_of_forall
    intro r hr
    obtain ⟨r3, hr3, rfl⟩ := List.mem_map.mp hr
    obtain ⟨r2, hr2, rfl⟩ := List.mem_map.mp hr3
    obtain ⟨r1, hr1, rfl⟩ := List.mem_map.mp hr2
    obtain ⟨x, hx, rfl⟩ := List.mem_map.mp hr1
    exact canonRow_ok_eq _ (hallu x hx)
  obtain ⟨t5, ht5⟩ : ∃ t5, canonComparisons (addType (addTracks ((addComparison data).map fun r =>
      { r with snr := some ((audioTokens r)[4]?.getD "") }))) = .ok t5 := ⟨_, hcanon⟩
  refine ⟨t5, ?_⟩
  simp [organize_data, organize_data_state, addSnr] at h2 ⊢
  simp [h2, canonComparisons] at ht5 ⊢
  simp [ht5]

/-! ## DAM claims -/

/-- C1: a row survives `remove_incomplete_datasets` exactly when the group of
rows sharing its `(subject, comparison, snr, condition)` key within its
`type` partition (`pref` or not-`pref`) has exactly 4 members; and every
copy of a surviving row is kept while a non-4 group loses all its rows —
groups are dropped wholesale, never trimmed. -/
theorem c1_remove_incomplete_keeps_exactly_count_four (data : List DamRow) (r : DamRow) :
    (r ∈ remove_incomplete_datasets data ↔ r ∈ data ∧ groupCount data r = 4) ∧
    List.count r (remove_incomplete_datasets data) =
      if groupCount data r = 4 then List.count r data else 0 :=
  remove_incomplete_spec data r

/-- C5 counterexample: the claim asserts that some input table distinguishes
the Cartesian-product enumeration from an enumeration of only the distinct
group keys present in the data.  No such input exists: a partially-missing
group (e.g. 2 of 4 rows) is still a *present* group key, so both
enumerations check it, and empty combinations are skipped by both. -/
theorem c5_counterexample_no_distinguishing_input :
    ¬ ∃ data : List DamRow,
        remove_incomplete_datasets data ≠ remove_incomplete_present data := by
  rintro ⟨data, hne⟩
  exact hne (remove_incomplete_eq_present data)

/-- C5 amended: on every input the Cartesian-product enumeration of observed
per-field values and the enumeration of distinct observed group keys yield
identical completeness-filter output — the extra combinations the Cartesian
product visits are exactly the empty ones, which the loop skips. -/
theorem c5_cartesian_equals_present_keys (data : List DamRow) :
    remove_incomplete_datasets data = remove_incomplete_present data :=
  remove_incomplete_eq_present data

/-- C3: `organize_data` fails with `MalformedAudioFileName` exactly when some
row's `audio_file` has fewer than 5 underscore tokens; it fails with
`UnknownComparisonLabel` exactly when no row is malformed but some row's
`button_A-button_B` string is not a key of the 6-entry canonicalization
table (a hard stop, never a silent drop); and it returns a table exactly
when every row is well formed. -/
theorem c3_organize_data_error_conditions (data : List DamRow) :
    (organize_data data = .error .MalformedAudioFileName ↔
      ∃ r ∈ data, malformedRow r) ∧
    (organize_data data = .error .UnknownComparisonLabel ↔
      ((∀ r ∈ data, ¬ malformedRow r) ∧ ∃ r ∈ data, unknownCompRow r)) ∧
    ((∃ out, organize_data data = .ok out) ↔
      ∀ r ∈ data, ¬ malformedRow r ∧ ¬ unknownCompRow r) := by
  by_cases hm : ∃ r ∈ data, malformedRow r
  · have horg := organize_data_err_malformed hm
    obtain ⟨x, hx, hmx⟩ := hm
    refine ⟨iff_of_true horg ⟨x, hx, hmx⟩, iff_of_false (by simp [horg]) ?_,
      iff_of_false (by simp [horg]) ?_⟩
    · rintro ⟨h1, _⟩
      exact h1 x hx hmx
    · intro h
      exact (h x hx).1 hmx
  · have hall : ∀ r ∈ data, ¬ malformedRow r := fun r hr hmr => hm ⟨r, hr, hmr⟩
    by_cases hu : ∃ r ∈ data, unknownCompRow r
    · have horg := organize_data_err_unknown hall hu
      obtain ⟨x, hx, hux⟩ := hu
      refine ⟨iff_of_false (by simp [horg]) hm, iff_of_true horg ⟨hall, x, hx, hux⟩,
        iff_of_false (by simp [horg]) ?_⟩
      intro h
      exact (h x hx).2 hux
    · have hallu : ∀ r ∈ data, ¬ unknownCompRow r := fun r hr hur => hu ⟨r, hr, hur⟩
      obtain ⟨out, hout⟩ := organize_data_all_ok hall hallu
      refine ⟨iff_of_false (by simp [hout]) hm, iff_of_false (by simp [hout]) ?_,
        iff_of_true ⟨out, hout⟩ fun r hr => ⟨hall r hr, hallu r hr⟩⟩
      rintro ⟨_, hex⟩
      exact hu hex

/-- C8: comparison canonicalization is idempotent on the lookup table's
domain — for every key of `COMPARISONS`, applying the mapping twice equals
applying it once (every canonical output is itself a key mapping to itself). -/
theorem c8_comparisons_idempotent :
    ∀ s ∈ COMPARISONS.map Prod.fst,
      (comparisonLookup s).bind comparisonLookup = comparisonLookup s := by
  decide

/-- Witness for C8 at the concrete key `"DAM_4-DAM_3"`. -/
theorem c8_idempotent_witness :
    "DAM_4-DAM_3" ∈ COMPARISONS.map Prod.fst ∧
      (comparisonLookup "DAM_4-DAM_3").bind comparisonLookup =
        comparisonLookup "DAM_4-DAM_3" :=
  ⟨by decide, c8_comparisons_idempotent "DAM_4-DAM_3" (by decide)⟩

/-- A well-formed one-row input used to exhibit `organize_data`'s in-place
mutation of its argument. -/
def c9_input : DamRow :=
  { subject := "1", condition := "A", button_A := "DAM_3", button_B := "DAM_OFF",
    audio_file := "119_a_b_c_5", outcome := "pick_A" }

/-- `organize_data`'s output row for `c9_input`. -/
def c9_organized : DamRow :=
  { c9_input with
    comparison := some "DAM_OFF-DAM_3"
    snr := some "5"
    tracks := some "119"
    type := some "noise" }

/-- C9 counterexample: `organize_data` is not pure with respect to its
argument — on the well-formed one-row table `[c9_input]`, the caller's table
after the call differs from the input (the derived columns have been added
to it in place). -/
theorem c9_counterexample_input_mutated :
    (organize_data_state [c9_input]).2 ≠ [c9_input] := by
  decide

/-- C9 amended: `organize_data` mutates the caller's table in place — after
a successful call the caller's table *is* the returned organized table (with
the derived `comparison`, `snr`, `tracks`, `type` columns), not the original
input. -/
theorem c9_organize_mutates_argument_to_result (data out : List DamRow)
    (h : organize_data data = .ok out) :
    (organize_data_state data).2 = out := by
  unfold organize_data at h
  cases h2 : addSnr (addComparison data) with
  | error e => simp [organize_data_state, h2] at h
  | ok t2 =>
    cases hc : canonComparisons (addType (addTracks t2)) with
    | error e => simp [organize_data_state, h2, hc] at h
    | ok t5 =>
      simp [organize_data_state, h2, hc] at h ⊢
      exact h

/-- Witness for the amended C9 at the concrete table `[c9_input]`. -/
theorem c9_mutation_witness :
    organize_data [c9_input] = .ok [c9_organized] ∧
      (organize_data_state [c9_input]).2 = [c9_organized] :=
  ⟨by rfl, c9_organize_mutates_argument_to_result [c9_input] [c9_organized] (by rfl)⟩

/-! ## REM data model (`src/rem/models/datamodel.py`)

The Verifit (measured) and e-STAT (target) tables as organized by
`DataModel.__init__` (`_organize_verifit_data` / `_organize_estat_data`):
string `subject`, `condition`, `form_factor` columns, the probe frequency,
and the measured/target levels for 65 dB SPL inputs per ear.  Levels are
embedded as integers; the arithmetic the engine performs on them is plain
subtraction, independent of the numeric representation. -/

structure VRow where
  subject : String
  condition : String
  form_factor : String
  freq : Nat
  left65 : Int
  right65 : Int
deriving DecidableEq, Repr

structure ERow where
  subject : String
  form_factor : String
  freq : Nat
  left : Int
  right : Int
deriving DecidableEq, Repr

/-- A measured row extended with the `left_diff` / `right_diff` columns.
`none` embeds the `NaN` pandas produces where the other frame has no row at
the position. -/
structure DiffRow where
  subject : String
  condition : String
  form_factor : String
  freq : Nat
  left65 : Int
  right65 : Int
  left_diff : Option Int
  right_diff : Option Int
deriving DecidableEq, Repr

/-- The measured fields of a deviation row (its diff columns dropped). -/
def diffBase (d : DiffRow) : VRow :=
  { subject := d.subject, condition := d.condition, form_factor := d.form_factor,
    freq := d.freq, left65 := d.left65, right65 := d.right65 }

/-- `KeyError` on the subject→form-factor dict (`UnassignableSubject` in the
specification's names). -/
inductive RemError where
  | UnassignableSubject
deriving DecidableEq, Repr

/-! ### `_assign_form_factors` -/

/-- Lexicographic order on `(subject, form_factor)` pairs: pandas `groupby`
sorts its group keys. -/
def pairLe (p q : String × String) : Bool :=
  decide (p.1 < q.1) || (p.1 == q.1 && decide (p.2 ≤ q.2))

def insertPair (p : String × String) :
    List (String × String) → List (String × String)
  | [] => [p]
  | q :: qs => if pairLe p q then p :: q :: qs else q :: insertPair p qs

/-- Insertion sort (a structural stand-in for the sort `groupby` performs;
the theorems below depend only on which pairs are present). -/
def sortPairs : List (String × String) → List (String × String)
  | [] => []
  | p :: ps => insertPair p (sortPairs ps)

/-- `self.edf.groupby(['subject', 'form_factor']).size().reset_index()`: the
distinct `(subject, form_factor)` pairs of the target table, in sorted
order. -/
def subject_ff_pairs (edf : List ERow) : List (String × String) :=
  sortPairs ((edf.map fun e => (e.subject, e.form_factor)).dedup)

/-- `dict(zip(temp['subject'], temp['form_factor']))[s]`: a Python dict
built by zipping keeps the *last* binding of a repeated key. -/
def dictLast : List (String × String) → String → Option String
  | [], _ => none
  | (k, v) :: rest, s =>
    match dictLast rest s with
    | some w => some w
    | none => if s = k then some v else none

/-- The subject→form-factor mapping `_assign_form_factors` builds from the
e-STAT frame. -/
def ff_lookup (edf : List ERow) (s : String) : Option String :=
  dictLast (subject_ff_pairs edf) s

/-- The row loop of `_assign_form_factors`: backfill `form_factor` from the
dict, raising `KeyError` (`UnassignableSubject`) at the first measured row
whose subject is not a key. -/
def assignRows (edf : List ERow) : List VRow → Except RemError (List VRow)
  | [] => .ok []
  | r :: rs =>
    match ff_lookup edf r.subject with
    | none => .error .UnassignableSubject
    | some f =>
      match assignRows edf rs with
      | .error e => .error e
      | .ok out => .ok ({ r with form_factor := f } :: out)

/-- `DataModel._assign_form_factors` on the organized Verifit and e-STAT
frames. -/
def assign_form_factors (vdf : List VRow) (edf : List ERow) :
    Except RemError (List VRow) :=
  assignRows edf vdf

/-! ### `collapse_form_factors` -/

/-- The receiver-in-canal variants collapsed into `allRIC`. -/
def RIC_FORMS : List String := ["RIC_RT", "RIC312", "MRIC"]

/-- The wireless-custom variants collapsed into `WirelessCustoms`. -/
def WC_FORMS : List String := ["ITC", "ITE", "CIC"]

/-- `collapse_form_factors` on the e-STAT frame: the `isin`-selected RIC
rows relabeled `allRIC`, concatenated with the `isin`-selected custom rows
relabeled `WirelessCustoms`; rows with any other form factor appear in
neither selection. -/
def collapse_estat (edf : List ERow) : List ERow :=
  ((edf.filter fun e => RIC_FORMS.contains e.form_factor).map
      fun e => { e with form_factor := "allRIC" }) ++
    ((edf.filter fun e => WC_FORMS.contains e.form_factor).map
      fun e => { e with form_factor := "WirelessCustoms" })

/-- `collapse_form_factors` on the Verifit frame. -/
def collapse_verifit (vdf : List VRow) : List VRow :=
  ((vdf.filter fun r => RIC_FORMS.contains r.form_factor).map
      fun r => { r with form_factor := "allRIC" }) ++
    ((vdf.filter fun r => WC_FORMS.contains r.form_factor).map
      fun r => { r with form_factor := "WirelessCustoms" })

/-! ### `_diff_from_estat` -/

/-- `v['left_diff'] = v['left65'] - e['left']` (and the right ear): pandas
aligns the two reset `RangeIndex`es positionally; positions of `v` beyond
`e`'s length get `NaN` (`none`), and surplus rows of `e` are ignored. -/
def diffRows : List VRow → List ERow → List DiffRow
  | [], _ => []
  | r :: v, [] =>
    { subject := r.subject, condition := r.condition, form_factor := r.form_factor,
      freq := r.freq, left65 := r.left65, right65 := r.right65,
      left_diff := none, right_diff := none } :: diffRows v []
  | r :: v, er :: e =>
    { subject := r.subject, condition := r.condition, form_factor := r.form_factor,
      freq := r.freq, left65 := r.left65, right65 := r.right65,
      left_diff := some (r.left65 - er.left),
      right_diff := some (r.right65 - er.right) } :: diffRows v e

/-- `v = verifit_data.loc[(condition==cond) & (form_factor==form)]`. -/
def vSelect (vdata : List VRow) (cond form : String) : List VRow :=
  vdata.filter fun r => r.condition == cond && r.form_factor == form

/-- `e = estat_data.loc[(form_factor==form) & subject.isin(v['subject'].unique())]`. -/
def eSelect (edata : List ERow) (vsel : List VRow) (form : String) : List ERow :=
  edata.filter fun e =>
    e.form_factor == form && ((vsel.map (·.subject)).dedup).contains e.subject

/-- The deviation group stored at `estat_diffs[cond + '_' + form]`. -/
def diffGroup (vdata : List VRow) (edata : List ERow) (cond form : String) :
    List DiffRow :=
  diffRows (vSelect vdata cond form) (eSelect edata (vSelect vdata cond form) form)

/-- `_diff_from_estat`: one group per `(condition, form_factor)` pair of the
nested loops over the measured table's distinct conditions and form factors.
(The source keys the dict by the string `cond + '_' + form`; conditions come
from `filename.split('_')` and so contain no underscore, making the string
key and the pair key equivalent.) -/
def diff_from_estat (vdata : List VRow) (edata : List ERow) :
    List ((String × String) × List DiffRow) :=
  ((vdata.map (·.condition)).dedup).flatMap fun cond =>
    ((vdata.map (·.form_factor)).dedup).map fun form =>
      ((cond, form), diffGroup vdata edata cond form)

/-! ### `_diff_from_endstudy` and `_diff_between_bestfit_targetmatch` -/

/-- The positional subtraction both intra-Verifit comparisons perform: the
result keeps the rows of `self_rows` (the looped condition's selection) and
subtracts *its* levels from the levels of the positionally-aligned row of
`other_rows` (`left_diff = other.left65 - self.left65`). -/
def diffRowsMeasured : List VRow → List VRow → List DiffRow
  | [], _ => []
  | r :: v, [] =>
    { subject := r.subject, condition := r.condition, form_factor := r.form_factor,
      freq := r.freq, left65 := r.left65, right65 := r.right65,
      left_diff := none, right_diff := none } :: diffRowsMeasured v []
  | r :: v, o :: os =>
    { subject := r.subject, condition := r.condition, form_factor := r.form_factor,
      freq := r.freq, left65 := r.left65, right65 := r.right65,
      left_diff := some (o.left65 - r.left65),
      right_diff := some (o.right65 - r.right65) } :: diffRowsMeasured v os

/-- `_diff_between_bestfit_targetmatch`: for the `TargetMatch` condition and
each distinct form factor, subtract the `TargetMatch` selection from the
`BestFit` selection positionally.  No subject restriction is applied. -/
def diff_between_bestfit_targetmatch (vdata : List VRow) :
    List ((String × String) × List DiffRow) :=
  (((vdata.map (·.condition)).dedup).filter fun c => c == "TargetMatch").flatMap
    fun cond =>
      ((vdata.map (·.form_factor)).dedup).map fun form =>
        ((cond, form),
          diffRowsMeasured
            (vdata.filter fun r => r.condition == cond && r.form_factor == form)
            (vdata.filter fun r => r.condition == "BestFit" && r.form_factor == form))

/-- `_diff_from_endstudy`: restrict the frame to subjects that have
`EndStudy` data (`all_conds`), then for the `TargetMatch` condition and each
distinct form factor subtract the `TargetMatch` selection from the
`EndStudy` selection positionally. -/
def diff_from_endstudy (vdata : List VRow) :
    List ((String × String) × List DiffRow) :=
  let subs := ((vdata.filter fun r => r.condition == "EndStudy").map (·.subject)).dedup
  let all_conds := vdata.filter fun r => subs.contains r.subject
  (((vdata.map (·.condition)).dedup).filter fun c => c == "TargetMatch").flatMap
    fun cond =>
      ((vdata.map (·.form_factor)).dedup).map fun form =>
        ((cond, form),
          diffRowsMeasured
            (all_conds.filter fun r => r.condition == cond && r.form_factor == form)
            (all_conds.filter fun r => r.condition == "EndStudy" && r.form_factor == form))

/-! ### Lemmas about `_assign_form_factors` -/

theorem dictLast_some_mem :
    ∀ (l : List (String × String)) (s f : String),
      dictLast l s = some f → (s, f) ∈ l := by
  intro l
  induction l with
  | nil => intro s f h; simp [dictLast] at h
  | cons p rest ih =>
    intro s f h
    obtain ⟨k, v⟩ := p
    cases hr : dictLast rest s with
    | some w =>
      simp only [dictLast, hr, Option.some.injEq] at h
      exact List.mem_cons_of_mem _ (h ▸ ih s w hr)
    | none =>
      simp only [dictLast, hr] at h
      by_cases hs : s = k
      · rw [if_pos hs] at h
        obtain rfl := (Option.some.injEq _ _).mp h
        exact hs ▸ List.mem_cons_self _ _
      · rw [if_neg hs] at h
        exact Option.noConfusion h

theorem dictLast_none_iff :
    ∀ (l : List (String × String)) (s : String),
      dictLast l s = none ↔ s ∉ l.map Prod.fst := by
  intro l
  induction l with
  | nil => intro s; simp [dictLast]
  | cons p rest ih =>
    intro s
    obtain ⟨k, v⟩ := p
    cases hr : dictLast rest s with
    | some w =>
      simp only [dictLast, hr]
      constructor
      · intro h
        exact Option.noConfusion h
      · intro h
        exfalso
        apply h
        have hmem : s ∈ List.map Prod.fst rest := by
          by_contra hn
          rw [(ih s).mpr hn] at hr
          exact Option.noConfusion hr
        simp only [List.map_cons, List.mem_cons]
        exact Or.inr hmem
    | none =>
      simp only [dictLast, hr]
      by_cases hs : s = k
      · subst hs
        simp
      · simp [hs, (ih s).mp hr]

theorem mem_insertPair {p a : String × String} :
    ∀ {l : List (String × String)}, a ∈ insertPair p l ↔ a = p ∨ a ∈ l := by
  intro l
  induction l with
  | nil => simp [insertPair]
  | cons q qs ih =>
    by_cases h : pairLe p q
    · simp [insertPair, h, List.mem_cons]
    · simp only [insertPair, if_neg h, List.mem_cons, ih]
      tauto

theorem mem_sortPairs {a : String × String} :
    ∀ {l : List (String × String)}, a ∈ sortPairs l ↔ a ∈ l := by
  intro l
  induction l with
  | nil => simp [sortPairs]
  | cons q qs ih => simp [sortPairs, mem_insertPair, ih]

theorem ff_lookup_none_iff (edf : List ERow) (s : String) :
    ff_lookup edf s = none ↔ s ∉ edf.map (·.subject) := by
  unfold ff_lookup subject_ff_pairs
  rw [dictLast_none_iff]
  have : ∀ X : List (String × String),
      s ∈ (sortPairs X).map Prod.fst ↔ s ∈ X.map Prod.fst := by
    intro X
    simp [List.mem_map, mem_sortPairs]
  rw [not_iff_not.mpr (this _)]
  simp [List.mem_map, List.mem_dedup]

theorem ff_lookup_some_source (edf : List ERow) (s f : String)
    (h : ff_lookup edf s = some f) :
    ∃ e ∈ edf, e.subject = s ∧ e.form_factor = f := by
  have hmem := dictLast_some_mem _ _ _ h
  unfold subject_ff_pairs at hmem
  rw [mem_sortPairs, List.mem_dedup] at hmem
  obtain ⟨e, he, heq⟩ := List.mem_map.mp hmem
  simp only [Prod.mk.injEq] at heq
  exact ⟨e, he, heq.1, heq.2⟩

theorem assignRows_error_iff (edf : List ERow) :
    ∀ vdf : List VRow,
      assignRows edf vdf = .error .UnassignableSubject ↔
        ∃ r ∈ vdf, ff_lookup edf r.subject = none := by
  intro vdf
  induction vdf with
  | nil => simp [assignRows]
  | cons r rs ih =>
    cases hf : ff_lookup edf r.subject with
    | none =>
      exact iff_of_true (by simp [assignRows, hf]) ⟨r, by simp, hf⟩
    | some f =>
      cases hrec : assignRows edf rs with
      | error e =>
        cases e
        obtain ⟨x, hx, hxf⟩ := ih.mp hrec
        exact iff_of_true (by simp [assignRows, hf, hrec]) ⟨x, by simp [hx], hxf⟩
      | ok out =>
        simp only [assignRows, hf, hrec]
        constructor
        · intro h
          exact Except.noConfusion h
        · rintro ⟨x, hx, hxf⟩
          rcases List.mem_cons.mp hx with rfl | hx'
          · rw [hf] at hxf
            exact Option.noConfusion hxf
          · rw [ih.mpr ⟨x, hx', hxf⟩] at hrec
            exact Except.noConfusion hrec

theorem assignRows_ok_iff (edf : List ERow) (vdf : List VRow) :
    (∃ out, assignRows edf vdf = .ok out) ↔
      ∀ r ∈ vdf, ff_lookup edf r.subject ≠ none := by
  cases h : assignRows edf vdf with
  | ok out =>
    refine iff_of_true ⟨out, rfl⟩ ?_
    intro r hr hnone
    have herr := (assignRows_error_iff edf vdf).mpr ⟨r, hr, hnone⟩
    simp [h] at herr
  | error e =>
    cases e
    obtain ⟨r, hr, hf⟩ := (assignRows_error_iff edf vdf).mp h
    refine iff_of_false ?_ ?_
    · rintro ⟨out, hout⟩
      simp [h] at hout
    · intro hall
      exact hall r hr hf

theorem assignRows_ok_eq (edf : List ERow) :
    ∀ (vdf out : List VRow), assignRows edf vdf = .ok out →
      out = vdf.map fun r =>
        { r with form_factor := (ff_lookup edf r.subject).getD r.form_factor } := by
  intro vdf
  induction vdf with
  | nil =>
    intro out h
    simp only [assignRows, Except.ok.injEq] at h
    simp [← h]
  | cons r rs ih =>
    intro out h
    cases hf : ff_lookup edf r.subject with
    | none => simp [assignRows, hf] at h
    | some f =>
      cases hrec : assignRows edf rs with
      | error e => simp [assignRows, hf, hrec] at h
      | ok out' =>
        simp only [assignRows, hf, hrec, Except.ok.injEq] at h
        rw [← h, ih out' hrec]
        simp [hf]

/-- C4: `_assign_form_factors` raises `UnassignableSubject` exactly when
some measured row's subject has no e-STAT entry; it succeeds exactly when
every measured subject appears in the target table, and then it returns the
measured rows with `form_factor` backfilled, each from a target-table entry
of the same subject. -/
theorem c4_assign_form_factors_spec (vdf : List VRow) (edf : List ERow) :
    (assign_form_factors vdf edf = .error .UnassignableSubject ↔
      ∃ r ∈ vdf, r.subject ∉ edf.map (·.subject)) ∧
    ((∃ out, assign_form_factors vdf edf = .ok out) ↔
      ∀ r ∈ vdf, r.subject ∈ edf.map (·.subject)) ∧
    (∀ out, assign_form_factors vdf edf = .ok out →
      out = (vdf.map fun r =>
        { r with form_factor := (ff_lookup edf r.subject).getD r.form_factor }) ∧
      ∀ v ∈ out, ∃ e ∈ edf, e.subject = v.subject ∧ e.form_factor = v.form_factor) := by
  refine ⟨?_, ?_, ?_⟩
  · rw [assign_form_factors, assignRows_error_iff]
    constructor
    · rintro ⟨r, hr, hf⟩
      exact ⟨r, hr, (ff_lookup_none_iff edf r.subject).mp hf⟩
    · rintro ⟨r, hr, hs⟩
      exact ⟨r, hr, (ff_lookup_none_iff edf r.subject).mpr hs⟩
  · rw [assign_form_factors, assignRows_ok_iff]
    constructor
    · intro h r hr
      by_contra hn
      exact h r hr ((ff_lookup_none_iff edf r.subject).mpr hn)
    · intro h r hr hf
      exact (ff_lookup_none_iff edf r.subject).mp hf (h r hr)
  · intro out hout
    have heq := assignRows_ok_eq edf vdf out hout
    refine ⟨heq, ?_⟩
    intro v hv
    rw [heq] at hv
    obtain ⟨r, hr, rfl⟩ := List.mem_map.mp hv
    have hne : ff_lookup edf r.subject ≠ none := by
      have := (assignRows_ok_iff edf vdf).mp ⟨out, hout⟩
      exact this r hr
    cases hf : ff_lookup edf r.subject with
    | none => exact absurd hf hne
    | some f =>
      obtain ⟨e, he, hes, hef⟩ := ff_lookup_some_source edf r.subject f hf
      exact ⟨e, he, by simp [hes, hef, hf]⟩

/-! ### Lemmas about the deviation computation -/

theorem diffRows_getElem :
    ∀ (v : List VRow) (e : List ERow) (i : Nat) (r : VRow) (er : ERow),
      v[i]? = some r → e[i]? = some er →
      (diffRows v e)[i]? = some
        { subject := r.subject, condition := r.condition, form_factor := r.form_factor,
          freq := r.freq, left65 := r.left65, right65 := r.right65,
          left_diff := some (r.left65 - er.left),
          right_diff := some (r.right65 - er.right) } := by
  intro v
  induction v with
  | nil => intro e i r er hv _; simp at hv
  | cons a v ih =>
    intro e i r er hv he
    cases e with
    | nil => simp at he
    | cons b e' =>
      cases i with
      | zero =>
        simp only [List.getElem?_cons_zero, Option.some.injEq] at hv he
        subst hv; subst he
        simp [diffRows]
      | succ n =>
        simp only [List.getElem?_cons_succ] at hv he
        simpa only [diffRows, List.getElem?_cons_succ] using ih e' n r er hv he

theorem diffRows_map_diffBase :
    ∀ (v : List VRow) (e : List ERow), (diffRows v e).map diffBase = v := by
  intro v
  induction v with
  | nil => intro e; cases e <;> rfl
  | cons a v ih =>
    intro e
    cases e with
    | nil => simp [diffRows, diffBase, ih]
    | cons b e' => simp [diffRows, diffBase, ih]

theorem mem_diffRowsMeasured_base :
    ∀ (v o : List VRow) (d : DiffRow), d ∈ diffRowsMeasured v o →
      ∃ r ∈ v, d.subject = r.subject ∧ d.condition = r.condition := by
  intro v
  induction v with
  | nil => intro o d hd; simp [diffRowsMeasured] at hd
  | cons a v ih =>
    intro o d hd
    cases o with
    | nil =>
      rcases List.mem_cons.mp hd with rfl | hd'
      · exact ⟨a, by simp, rfl, rfl⟩
      · obtain ⟨r, hr, h1, h2⟩ := ih [] d hd'
        exact ⟨r, by simp [hr], h1, h2⟩
    | cons b os =>
      rcases List.mem_cons.mp hd with rfl | hd'
      · exact ⟨a, by simp, rfl, rfl⟩
      · obtain ⟨r, hr, h1, h2⟩ := ih os d hd'
        exact ⟨r, by simp [hr], h1, h2⟩

theorem groupsInner_filter_eq {β : Type} (F : String → String → β)
    (c form : String) :
    ∀ (forms : List String), forms.Nodup → form ∈ forms →
      (forms.map fun f => ((c, f), F c f)).filter
          (fun g => g.1 == (c, form)) = [((c, form), F c form)] := by
  intro forms
  induction forms with
  | nil => intro _ hfm; simp at hfm
  | cons f fs ih =>
    intro hnd hfm
    obtain ⟨hf_not, hnd'⟩ := List.nodup_cons.mp hnd
    rcases List.mem_cons.mp hfm with rfl | hfm'
    · simp only [List.map_cons, List.filter_cons, beq_self_eq_true, if_pos]
      have hrest : (fs.map fun x => ((c, x), F c x)).filter
          (fun g => g.1 == (c, form)) = [] := by
        rw [List.filter_eq_nil_iff]
        intro g hg
        obtain ⟨x, hx, rfl⟩ := List.mem_map.mp hg
        simp only [beq_iff_eq, Prod.mk.injEq]
        rintro ⟨-, rfl⟩
        exact hf_not hx
      simp [hrest]
    · have hne : f ≠ form := fun he => hf_not (he ▸ hfm')
      simp only [List.map_cons, List.filter_cons]
      have hfalse : (((c, f), F c f).1 == (c, form)) = false := by
        simp [hne]
      simp [hfalse, ih hnd' hfm']

theorem groups_filter_single {β : Type} (F : String → String → β)
    (cond form : String) :
    ∀ (conds : List String) (forms : List String), conds.Nodup → forms.Nodup →
      cond ∈ conds → form ∈ forms →
      (conds.flatMap fun c => forms.map fun f => ((c, f), F c f)).filter
          (fun g => g.1 == (cond, form)) = [((cond, form), F cond form)] := by
  intro conds forms hc hf hcm hfm
  induction conds with
  | nil => simp at hcm
  | cons c cs ih =>
    obtain ⟨hc_not, hc'⟩ := List.nodup_cons.mp hc
    rw [List.flatMap_cons, List.filter_append]
    rcases List.mem_cons.mp hcm with rfl | hcm'
    · rw [groupsInner_filter_eq F cond form forms hf hfm]
      have hrest : (cs.flatMap fun x => forms.map fun f => ((x, f), F x f)).filter
          (fun g => g.1 == (cond, form)) = [] := by
        rw [List.filter_eq_nil_iff]
        intro g hg
        obtain ⟨x, hx, hg'⟩ := List.mem_flatMap.mp hg
        obtain ⟨f, _, rfl⟩ := List.mem_map.mp hg'
        simp only [beq_iff_eq, Prod.mk.injEq]
        rintro ⟨rfl, -⟩
        exact hc_not hx
      rw [hrest, List.append_nil]
    · have hne : c ≠ cond := fun he => hc_not (he ▸ hcm')
      have hhead : (forms.map fun f => ((c, f), F c f)).filter
          (fun g => g.1 == (cond, form)) = [] := by
        rw [List.filter_eq_nil_iff]
        intro g hg
        obtain ⟨f, _, rfl⟩ := List.mem_map.mp hg
        simp only [beq_iff_eq, Prod.mk.injEq]
        rintro ⟨rfl, -⟩
        exact hne rfl
      rw [hhead, List.nil_append]
      exact ih hc' hcm'

/-- C2: for every `(condition, form_factor)` pair present in the measured
table, `_diff_from_estat` stores exactly one deviation group under that key,
and within the group the row at each position carries
`left_diff = measured.left65 − target.left` and
`right_diff = measured.right65 − target.right` against the positionally
aligned target row (the scenario witness instantiates this at the
specification's concrete records, yielding `left_diff = 5`,
`right_diff = 2`). -/
theorem c2_diff_from_estat_groups (vdata : List VRow) (edata : List ERow)
    (cond form : String)
    (h : ∃ r ∈ vdata, r.condition = cond ∧ r.form_factor = form) :
    ((diff_from_estat vdata edata).filter (fun g => g.1 == (cond, form)) =
      [((cond, form), diffGroup vdata edata cond form)]) ∧
    (∀ (i : Nat) (r : VRow) (er : ERow), (vSelect vdata cond form)[i]? = some r →
      (eSelect edata (vSelect vdata cond form) form)[i]? = some er →
      (diffGroup vdata edata cond form)[i]? = some
        ({ subject := r.subject, condition := r.condition,
           form_factor := r.form_factor, freq := r.freq,
           left65 := r.left65, right65 := r.right65,
           left_diff := some (r.left65 - er.left),
           right_diff := some (r.right65 - er.right) } : DiffRow)) := by
  obtain ⟨r0, hr0, hc0, hf0⟩ := h
  constructor
  · exact groups_filter_single _ cond form _ _
      (List.nodup_dedup _) (List.nodup_dedup _)
      (List.mem_dedup.mpr (List.mem_map.mpr ⟨r0, hr0, hc0⟩))
      (List.mem_dedup.mpr (List.mem_map.mpr ⟨r0, hr0, hf0⟩))
  · intro i r er hv he
    unfold diffGroup
    exact diffRows_getElem _ _ i r er hv he

/-- The specification's scenario: the measured record. -/
def c2_measured : VRow :=
  { subject := "S1", condition := "TargetMatch", form_factor := "RIC_RT",
    freq := 1000, left65 := 50, right65 := 52 }

/-- The specification's scenario: the target record. -/
def c2_target : ERow :=
  { subject := "S1", form_factor := "RIC_RT", freq := 1000, left := 45, right := 50 }

/-- Witness for C2 at the specification's scenario records: the single
deviation group carries `left_diff = 5` and `right_diff = 2`. -/
theorem c2_scenario_witness :
    (diff_from_estat [c2_measured] [c2_target]).filter
        (fun g => g.1 == ("TargetMatch", "RIC_RT")) =
      [(("TargetMatch", "RIC_RT"),
        [{ subject := "S1", condition := "TargetMatch", form_factor := "RIC_RT",
           freq := 1000, left65 := 50, right65 := 52,
           left_diff := some 5, right_diff := some 2 }])] :=
  ((c2_diff_from_estat_groups [c2_measured] [c2_target] "TargetMatch" "RIC_RT"
      ⟨c2_measured, by decide, by decide, by decide⟩).1).trans (by decide)

/-! ### Lemmas about `collapse_form_factors` and the collapsed rerun -/

theorem filter_or_perm {α : Type} (p q : α → Bool)
    (hdisj : ∀ a, p a = true → q a = false) :
    ∀ l : List α,
      List.Perm (l.filter fun a => p a || q a) (l.filter p ++ l.filter q) := by
  intro l
  induction l with
  | nil => simp
  | cons a l ih =>
    cases hp : p a with
    | true =>
      have hq := hdisj a hp
      simp only [List.filter_cons, hp, hq, Bool.true_or, if_pos, List.cons_append]
      exact ih.cons a
    | false =>
      cases hq : q a with
      | true =>
        simp only [List.filter_cons, hp, hq, Bool.false_or, if_pos]
        exact (ih.cons a).trans List.perm_middle.symm
      | false =>
        simp only [List.filter_cons, hp, hq, Bool.false_or, if_neg, Bool.false_eq_true,
          not_false_eq_true]
        exact ih

theorem contains_RIC (s : String) :
    RIC_FORMS.contains s = (s == "RIC_RT" || (s == "RIC312" || s == "MRIC")) := by
  rw [Bool.eq_iff_iff]
  simp [RIC_FORMS, List.contains_cons]

/-- C6 amended: collapsing `{RIC_RT, RIC312, MRIC} → allRIC` in both tables
and re-running the deviation computation yields, for each condition, a
group whose *measured rows* are exactly (as a multiset) the union of the
three original per-form-factor groups' measured rows with `form_factor`
relabeled to `allRIC`; the `left_diff`/`right_diff` columns, however, are
recomputed against the collapsed target selection's positional order and
are not in general unchanged (see the counterexample). -/
theorem c6_collapse_rows_union (vdf : List VRow) (edf : List ERow) (cond : String) :
    List.Perm
      ((diffGroup (collapse_verifit vdf) (collapse_estat edf) cond "allRIC").map diffBase)
      ((((diffGroup vdf edf cond "RIC_RT").map diffBase).map
          fun r => { r with form_factor := "allRIC" }) ++
        (((diffGroup vdf edf cond "RIC312").map diffBase).map
          fun r => { r with form_factor := "allRIC" }) ++
        (((diffGroup vdf edf cond "MRIC").map diffBase).map
          fun r => { r with form_factor := "allRIC" })) := by
  unfold diffGroup
  rw [diffRows_map_diffBase, diffRows_map_diffBase, diffRows_map_diffBase,
    diffRows_map_diffBase]
  unfold vSelect collapse_verifit
  rw [List.filter_append, List.filter_map, List.filter_map]
  have hWC : ((vdf.filter fun r => WC_FORMS.contains r.form_factor).filter
      ((fun r => r.condition == cond && r.form_factor == "allRIC") ∘
        fun r => { r with form_factor := "WirelessCustoms" })) = [] := by
    rw [List.filter_eq_nil_iff]
    intro a _
    have hne : (("WirelessCustoms" : String) == "allRIC") = false := by decide
    simp [Function.comp, hne]
  have hRIC : ((vdf.filter fun r => RIC_FORMS.contains r.form_factor).filter
      ((fun r => r.condition == cond && r.form_factor == "allRIC") ∘
        fun r => { r with form_factor := "allRIC" })) =
      vdf.filter fun r => (r.condition == cond) && RIC_FORMS.contains r.form_factor := by
    rw [List.filter_filter]
    apply List.filter_congr
    intro a _
    simp [Function.comp]
  rw [hWC, hRIC, List.map_nil, List.append_nil, ← List.map_append, ← List.map_append]
  apply List.Perm.map
  have hsplit : (vdf.filter fun r => (r.condition == cond) && RIC_FORMS.contains r.form_factor)
      = vdf.filter fun r => ((r.condition == cond && r.form_factor == "RIC_RT") ||
          ((r.condition == cond && r.form_factor == "RIC312") ||
           (r.condition == cond && r.form_factor == "MRIC"))) := by
    apply List.filter_congr
    intro a _
    rw [contains_RIC]
    cases a.condition == cond <;> cases a.form_factor == "RIC_RT" <;>
      cases a.form_factor == "RIC312" <;> cases a.form_factor == "MRIC" <;> rfl
  rw [hsplit]
  have hx12 : (("RIC_RT" : String) == "RIC312") = false := by decide
  have hx13 : (("RIC_RT" : String) == "MRIC") = false := by decide
  have hx23 : (("RIC312" : String) == "MRIC") = false := by decide
  have hd1 : ∀ a : VRow, (a.condition == cond && a.form_factor == "RIC_RT") = true →
      ((a.condition == cond && a.form_factor == "RIC312") ||
       (a.condition == cond && a.form_factor == "MRIC")) = false := by
    intro a h
    simp only [Bool.and_eq_true, beq_iff_eq] at h
    obtain ⟨hcnd, hff⟩ := h
    simp [hff, hx12, hx13]
  have hd2 : ∀ a : VRow, (a.condition == cond && a.form_factor == "RIC312") = true →
      (a.condition == cond && a.form_factor == "MRIC") = false := by
    intro a h
    simp only [Bool.and_eq_true, beq_iff_eq] at h
    obtain ⟨hcnd, hff⟩ := h
    simp [hff, hx23]
  refine ((filter_or_perm _ _ hd1 vdf).trans ?_)
  refine (((filter_or_perm _ _ hd2 vdf).append_left _).trans ?_)
  rw [List.append_assoc]

/-- Verifit rows for the C6 counterexample: two RIC subjects measured under
one condition. -/
def c6_v1 : VRow :=
  { subject := "S1", condition := "TargetMatch", form_factor := "RIC_RT",
    freq := 1000, left65 := 50, right65 := 50 }

def c6_v2 : VRow :=
  { subject := "S2", condition := "TargetMatch", form_factor := "RIC312",
    freq := 1000, left65 := 60, right65 := 60 }

/-- e-STAT rows for the C6 counterexample, stored in the opposite subject
order to the Verifit frame. -/
def c6_e1 : ERow :=
  { subject := "S2", form_factor := "RIC312", freq := 1000, left := 10, right := 10 }

def c6_e2 : ERow :=
  { subject := "S1", form_factor := "RIC_RT", freq := 1000, left := 20, right := 20 }

/-- C6 counterexample: rerunning the deviation computation on the collapsed
tables does *not*, in general, yield the three original groups' rows with
their diffs unchanged — collapsing merges the target selections, changing
the positional alignment, so the recomputed diffs differ (here the original
groups carry diffs 30 and 50 while the collapsed group carries 40 and 40). -/
theorem c6_counterexample_diffs_change :
    ¬ List.Perm
      (diffGroup (collapse_verifit [c6_v1, c6_v2]) (collapse_estat [c6_e1, c6_e2])
        "TargetMatch" "allRIC")
      (((diffGroup [c6_v1, c6_v2] [c6_e1, c6_e2] "TargetMatch" "RIC_RT").map
          fun d => { d with form_factor := "allRIC" }) ++
        ((diffGroup [c6_v1, c6_v2] [c6_e1, c6_e2] "TargetMatch" "RIC312").map
          fun d => { d with form_factor := "allRIC" }) ++
        ((diffGroup [c6_v1, c6_v2] [c6_e1, c6_e2] "TargetMatch" "MRIC").map
          fun d => { d with form_factor := "allRIC" })) := by
  intro hp
  have h := hp.count_eq
    ({ subject := "S1", condition := "TargetMatch", form_factor := "allRIC",
       freq := 1000, left65 := 50, right65 := 50,
       left_diff := some 40, right_diff := some 40 } : DiffRow)
  revert h
  decide

/-! ### Subject restriction of the intra-Verifit comparisons -/

/-- C7 amended: the EndStudy-vs-TargetMatch variant is restricted to
subjects that have `EndStudy` data, so every row of its deviation groups
belongs to a subject present in both compared conditions; the
BestFit-vs-TargetMatch variant applies *no* subject restriction — its group
rows are exactly the `TargetMatch` rows, whether or not the subject has any
`BestFit` data (see the counterexample). -/
theorem c7_subject_restriction :
    (∀ (vdata : List VRow), ∀ g ∈ diff_from_endstudy vdata, ∀ d ∈ g.2,
      (∃ r ∈ vdata, r.subject = d.subject ∧ r.condition = "EndStudy") ∧
      (∃ r ∈ vdata, r.subject = d.subject ∧ r.condition = "TargetMatch")) ∧
    (∀ (vdata : List VRow), ∀ g ∈ diff_between_bestfit_targetmatch vdata, ∀ d ∈ g.2,
      ∃ r ∈ vdata, r.subject = d.subject ∧ r.condition = "TargetMatch") := by
  constructor
  · intro vdata g hg d hd
    simp only [diff_from_endstudy] at hg
    obtain ⟨c, hc, hg'⟩ := List.mem_flatMap.mp hg
    obtain ⟨f, hf, rfl⟩ := List.mem_map.mp hg'
    have hcT : c = "TargetMatch" := beq_iff_eq.mp (List.mem_filter.mp hc).2
    obtain ⟨r, hr, hds, hdc⟩ := mem_diffRowsMeasured_base _ _ d hd
    obtain ⟨hrA, hrP⟩ := List.mem_filter.mp hr
    obtain ⟨hrV, hrS⟩ := List.mem_filter.mp hrA
    have hrc : r.condition = "TargetMatch" := by
      have := (Bool.and_eq_true _ _).mp hrP
      exact hcT ▸ beq_iff_eq.mp this.1
    constructor
    · have hsub : r.subject ∈
          ((vdata.filter fun x => x.condition == "EndStudy").map (·.subject)).dedup := by
        simpa using hrS
      rw [List.mem_dedup] at hsub
      obtain ⟨x, hx, hxs⟩ := List.mem_map.mp hsub
      obtain ⟨hxV, hxE⟩ := List.mem_filter.mp hx
      exact ⟨x, hxV, hxs.trans hds.symm, beq_iff_eq.mp hxE⟩
    · exact ⟨r, hrV, hds.symm, hrc⟩
  · intro vdata g hg d hd
    simp only [diff_between_bestfit_targetmatch] at hg
    obtain ⟨c, hc, hg'⟩ := List.mem_flatMap.mp hg
    obtain ⟨f, hf, rfl⟩ := List.mem_map.mp hg'
    have hcT : c = "TargetMatch" := beq_iff_eq.mp (List.mem_filter.mp hc).2
    obtain ⟨r, hr, hds, hdc⟩ := mem_diffRowsMeasured_base _ _ d hd
    obtain ⟨hrV, hrP⟩ := List.mem_filter.mp hr
    have hrc : r.condition = "TargetMatch" := by
      have := (Bool.and_eq_true _ _).mp hrP
      exact hcT ▸ beq_iff_eq.mp this.1
    exact ⟨r, hrV, hds.symm, hrc⟩

/-- Verifit row for the C7 counterexample: a subject with `TargetMatch`
data but no `BestFit` data. -/
def c7_v : VRow :=
  { subject := "S1", condition := "TargetMatch", form_factor := "RIC_RT",
    freq := 1000, left65 := 50, right65 := 50 }

/-- C7 counterexample: in `_diff_between_bestfit_targetmatch`, a subject
that appears only in `TargetMatch` (no `BestFit` rows at all) still
contributes its rows to the resulting deviation group — the comparison is
not restricted to subjects present in both conditions. -/
theorem c7_counterexample_no_bestfit_restriction :
    ¬ (∀ g ∈ diff_between_bestfit_targetmatch [c7_v], ∀ d ∈ g.2,
        ∃ r ∈ [c7_v], r.subject = d.subject ∧ r.condition = "BestFit") := by
  decide

/-! ### C10: what `collapse_form_factors` keeps -/

/-- C10: the collapsed tables consist exactly of the rows whose
`form_factor` is one of the six labels `RIC_RT`, `RIC312`, `MRIC` (relabeled
`allRIC`) or `ITC`, `ITE`, `CIC` (relabeled `WirelessCustoms`, `CIC`
included); rows with any other label appear in neither collapsed table, and
every collapsed row carries one of the two bucket labels. -/
theorem c10_collapse_only_six_labels (vdf : List VRow) (edf : List ERow)
    (v : VRow) (e : ERow) :
    (v ∈ collapse_verifit vdf ↔
      ∃ r ∈ vdf, (r.form_factor ∈ RIC_FORMS ∧ v = { r with form_factor := "allRIC" }) ∨
        (r.form_factor ∈ WC_FORMS ∧ v = { r with form_factor := "WirelessCustoms" })) ∧
    (e ∈ collapse_estat edf ↔
      ∃ r ∈ edf, (r.form_factor ∈ RIC_FORMS ∧ e = { r with form_factor := "allRIC" }) ∨
        (r.form_factor ∈ WC_FORMS ∧ e = { r with form_factor := "WirelessCustoms" })) ∧
    (∀ x ∈ collapse_verifit vdf,
      x.form_factor = "allRIC" ∨ x.form_factor = "WirelessCustoms") ∧
    (∀ x ∈ collapse_estat edf,
      x.form_factor = "allRIC" ∨ x.form_factor = "WirelessCustoms") := by
  refine ⟨?_, ?_, ?_, ?_⟩
  · unfold collapse_verifit
    rw [List.mem_append]
    simp only [List.mem_map, List.mem_filter]
    constructor
    · rintro (⟨x, ⟨hx, hc⟩, rfl⟩ | ⟨x, ⟨hx, hc⟩, rfl⟩)
      · exact ⟨x, hx, Or.inl ⟨by simpa using hc, rfl⟩⟩
      · exact ⟨x, hx, Or.inr ⟨by simpa using hc, rfl⟩⟩
    · rintro ⟨r, hr, (⟨hm, rfl⟩ | ⟨hm, rfl⟩)⟩
      · exact Or.inl ⟨r, ⟨hr, by simpa using hm⟩, rfl⟩
      · exact Or.inr ⟨r, ⟨hr, by simpa using hm⟩, rfl⟩
  · unfold collapse_estat
    rw [List.mem_append]
    simp only [List.mem_map, List.mem_filter]
    constructor
    · rintro (⟨x, ⟨hx, hc⟩, rfl⟩ | ⟨x, ⟨hx, hc⟩, rfl⟩)
      · exact ⟨x, hx, Or.inl ⟨by simpa using hc, rfl⟩⟩
      · exact ⟨x, hx, Or.inr ⟨by simpa using hc, rfl⟩⟩
    · rintro ⟨r, hr, (⟨hm, rfl⟩ | ⟨hm, rfl⟩)⟩
      · exact Or.inl ⟨r, ⟨hr, by simpa using hm⟩, rfl⟩
      · exact Or.inr ⟨r, ⟨hr, by simpa using hm⟩, rfl⟩
  · intro x hx
    unfold collapse_verifit at hx
    rw [List.mem_append] at hx
    rcases hx with hx | hx
    · obtain ⟨r, _, rfl⟩ := List.mem_map.mp hx
      exact Or.inl rfl
    · obtain ⟨r, _, rfl⟩ := List.mem_map.mp hx
      exact Or.inr rfl
  · intro x hx
    unfold collapse_estat at hx
    rw [List.mem_append] at hx
    rcases hx with hx | hx
    · obtain ⟨r, _, rfl⟩ := List.mem_map.mp hx
      exact Or.inl rfl
    · obtain ⟨r, _, rfl⟩ := List.mem_map.mp hx
      exact Or.inr rfl

end Afton

